import Mathlib

/-!
# Verification of the complex-field sampling and rendering pipeline

Shallow embedding of the core numeric pipeline of the `icons` repository:
grid construction (`np.linspace` / `np.meshgrid`), singularity masking,
elementwise evaluation of `exp(1/z)` and the principal complex logarithm,
component extraction with clipping, and the discrete color banding model.

Floating-point numbers are modelled as exact reals (grid coordinates as
exact rationals); numpy's NaN undefined marker is modelled as `Option.none`.
-/

namespace Icons

/-- Embeds `np.linspace a b n`: `n` evenly spaced samples covering `[a, b]`
inclusive of both endpoints.  numpy returns `[a]` for `n = 1` and the empty
array for `n = 0`; for `n ≥ 2` the i-th sample is `a + (b - a) * i / (n-1)`. -/
def linspace (a b : ℚ) (n : ℕ) : List ℚ :=
  if n = 0 then []
  else if n = 1 then [a]
  else (List.range n).map (fun i : ℕ => a + (b - a) * (i : ℚ) / ((n : ℚ) - 1))

/-- One lattice coordinate `Z = X + 1j * Y` built from axis samples. -/
noncomputable def gridPoint (x y : ℚ) : ℂ := (x : ℂ) + (y : ℂ) * Complex.I

/-- Embeds `np.meshgrid` followed by `Z = X + 1j * Y`: row `i`, column `j` holds
`x_vals[j] + i * y_vals[i]`. -/
noncomputable def complexGrid (xs ys : List ℚ) : List (List ℂ) :=
  ys.map (fun y => xs.map (fun x => gridPoint x y))

/-- Embeds `Z[np.abs(Z) < singularity_size] = np.nan`, per lattice point: points
with modulus below the radius become the undefined marker. -/
noncomputable def maskPoint (s : ℝ) (z : ℂ) : Option ℂ :=
  if Complex.abs z < s then none else some z

/-- Embeds `exp_inv_complex`: `np.exp(1 / Z)` elementwise under
`np.errstate(divide=ignore, invalid=ignore)`.  NaN propagates
(`1/nan = nan`, `exp(nan) = nan`) and complex division of a finite number
by exactly zero yields NaN, so an unmasked exact zero also maps to the
undefined marker; no error is ever raised. -/
noncomputable def exp_inv_complex (oz : Option ℂ) : Option ℂ :=
  match oz with
  | none => none
  | some z => if z = 0 then none else some (Complex.exp z⁻¹)

/-- Embeds `np.clip v lo hi` on one value: `min (max v lo) hi`. -/
def npClip {α : Type} [LinearOrder α] (v lo hi : α) : α := min (max v lo) hi

/-- Embeds `np.clip` lifted over the undefined marker: NaN passes through. -/
def clipOpt {α : Type} [LinearOrder α] (lo hi : α) : Option α → Option α :=
  Option.map (fun v => npClip v lo hi)

/-- Embeds `np.real` elementwise (NaN propagates). -/
noncomputable def realPart : Option ℂ → Option ℝ := Option.map Complex.re

/-- Embeds `np.imag` elementwise (NaN propagates). -/
noncomputable def imagPart : Option ℂ → Option ℝ := Option.map Complex.im

/-- Embeds `np.abs` elementwise (NaN propagates). -/
noncomputable def absPart : Option ℂ → Option ℝ := Option.map Complex.abs

/-- Embeds `np.angle(w, deg=True)` elementwise: the argument in `(-π, π]`
scaled to degrees (NaN propagates). -/
noncomputable def argDeg : Option ℂ → Option ℝ :=
  Option.map (fun w => Complex.arg w * 180 / Real.pi)

/-- Apply a per-point stage over a whole 2D lattice. -/
def fieldMap {α β : Type} (f : α → β) (g : List (List α)) : List (List β) :=
  g.map (List.map f)

/-- Row lengths of a 2D lattice (the numpy array shape). -/
def shape {α : Type} (g : List (List α)) : List ℕ := g.map List.length

/-- The per-point real-part pipeline of `plot_complex_exp`:
mask, evaluate `exp(1/z)`, take the real part, clip to `[-2, 2]`. -/
noncomputable def expRealPoint (s : ℝ) (z : ℂ) : Option ℝ :=
  clipOpt (-2) 2 (realPart (exp_inv_complex (maskPoint s z)))

/-- The per-point imaginary-part pipeline of `plot_imaginary_exp`:
mask, evaluate `exp(1/z)`, take the imaginary part, clip to `[-2, 2]`. -/
noncomputable def expImagPoint (s : ℝ) (z : ℂ) : Option ℝ :=
  clipOpt (-2) 2 (imagPart (exp_inv_complex (maskPoint s z)))

/-- The per-point modulus pipeline of `plot_absolute_exp`:
mask, evaluate `exp(1/z)`, take the modulus, clip to `[0, 2]`
(the source clips the absolute value to `[0, 2]`, not `[-2, 2]`). -/
noncomputable def expAbsPoint (s : ℝ) (z : ℂ) : Option ℝ :=
  clipOpt 0 2 (absPart (exp_inv_complex (maskPoint s z)))

/-- The full real-part scalar field of `plot_complex_exp` over the
`[-1,1] × [-1,1]` grid at the given resolution. -/
noncomputable def expRealField (res : ℕ) (s : ℝ) : List (List (Option ℝ)) :=
  fieldMap (expRealPoint s) (complexGrid (linspace (-1) 1 res) (linspace (-1) 1 res))

/-- Coordinates of `gridPoint`. -/
@[simp] theorem gridPoint_re (x y : ℚ) : (gridPoint x y).re = (x : ℝ) := by
  simp [gridPoint]

@[simp] theorem gridPoint_im (x y : ℚ) : (gridPoint x y).im = (y : ℝ) := by
  simp [gridPoint]

/-- Claim C1: for the exp_inv pipeline with singularity radius `s`, every
lattice point `z` with `|z| < s` is replaced by the undefined marker before
the function is evaluated, and no finite value is ever produced at such a
position in the resulting scalar field; lattice points with `|z| ≥ s` are
not masked. -/
theorem claim1_mask_correctness (s : ℝ) (z : ℂ) :
    (Complex.abs z < s →
      maskPoint s z = none ∧
      exp_inv_complex (maskPoint s z) = none ∧
      expRealPoint s z = none) ∧
    (s ≤ Complex.abs z → maskPoint s z = some z) := by
  constructor
  · intro h
    have hm : maskPoint s z = none := by simp [maskPoint, h]
    refine ⟨hm, ?_, ?_⟩
    · rw [hm]; rfl
    · simp [expRealPoint, hm, exp_inv_complex, realPart, clipOpt]
  · intro h
    simp [maskPoint, not_lt.mpr h]

theorem claim1_mask_correctness_witness :
    maskPoint 1 0 = none ∧ maskPoint 1 1 = some 1 :=
  ⟨((claim1_mask_correctness 1 0).1 (by simp)).1,
   (claim1_mask_correctness 1 1).2 (by simp)⟩

/-- Claim C2: evaluating `exp(1/z)` over the (possibly masked) lattice
never raises for any input position — the evaluator is total, returning
either the undefined marker or a finite complex value; the masked marker
and an exact zero both yield the undefined marker, any nonzero input
yields the finite value `exp(1/z)`, and the output field has the same
shape as the input lattice. -/
theorem claim2_exp_inv_total :
    (∀ oz : Option ℂ,
      exp_inv_complex oz = none ∨ ∃ w : ℂ, exp_inv_complex oz = some w) ∧
    exp_inv_complex none = none ∧
    exp_inv_complex (some 0) = none ∧
    (∀ z : ℂ, z ≠ 0 → exp_inv_complex (some z) = some (Complex.exp z⁻¹)) ∧
    (∀ field : List (List (Option ℂ)),
      shape (fieldMap exp_inv_complex field) = shape field) := by
  refine ⟨?_, rfl, by simp [exp_inv_complex], ?_, ?_⟩
  · intro oz
    match oz with
    | none => exact Or.inl rfl
    | some z =>
      by_cases hz : z = 0
      · exact Or.inl (by simp [exp_inv_complex, hz])
      · exact Or.inr ⟨Complex.exp z⁻¹, by simp [exp_inv_complex, hz]⟩
  · intro z hz
    simp [exp_inv_complex, hz]
  · intro field
    simp [shape, fieldMap]

theorem claim2_exp_inv_total_witness :
    exp_inv_complex (some 1) = some (Complex.exp 1⁻¹) :=
  claim2_exp_inv_total.2.2.2.1 1 one_ne_zero

end Icons

namespace Icons

/-- Embeds `zero_mask = (X == 0) & (Y == 0)` followed by `Z[zero_mask] = np.nan`,
per lattice point: the exact-zero coordinate becomes the undefined marker. -/
noncomputable def maskZeroPoint (x y : ℚ) : Option ℂ :=
  if x = 0 ∧ y = 0 then none else some (gridPoint x y)

/-- Embeds `np.log(Z)` elementwise on the zero-masked lattice (NaN propagates;
the principal branch is used, with argument in `(-π, π]`). -/
noncomputable def lnPoint (x y : ℚ) : Option ℂ :=
  (maskZeroPoint x y).map Complex.log

/-- Claim C3: for the principal_log pipeline, at every non-undefined lattice
position the imaginary part of the field value lies in `(-π, π]` and the
real part equals the natural logarithm of the modulus of `z`. -/
theorem claim3_principal_branch (x y : ℚ) (w : ℂ) (h : lnPoint x y = some w) :
    w.im ∈ Set.Ioc (-Real.pi) Real.pi ∧
    w.re = Real.log (Complex.abs (gridPoint x y)) := by
  unfold lnPoint maskZeroPoint at h
  by_cases hz : x = 0 ∧ y = 0
  · simp [hz] at h
  · simp only [hz, if_false, Option.map_some'] at h
    have hw : w = Complex.log (gridPoint x y) := (Option.some.inj h).symm
    subst hw
    refine ⟨?_, ?_⟩
    · rw [Complex.log_im]
      exact Complex.arg_mem_Ioc (gridPoint x y)
    · rw [Complex.log_re]

theorem claim3_principal_branch_witness :
    (Complex.log (gridPoint 1 0)).im ∈ Set.Ioc (-Real.pi) Real.pi ∧
    (Complex.log (gridPoint 1 0)).re = Real.log (Complex.abs (gridPoint 1 0)) :=
  claim3_principal_branch 1 0 (Complex.log (gridPoint 1 0))
    (by simp [lnPoint, maskZeroPoint])

/-- Claim C4 counterexample: the claim says the modulus projection in the
exp(1/z) case is clamped to `[-2, 2]` (values below `-2` become `-2`), but
the source clips the absolute value with bounds `0` and `2`: at input `-1`
the source clamp returns `0` while a `[-2, 2]` clamp returns `-1`. -/
theorem claim4_abs_clamp_counterexample :
    clipOpt (0 : ℝ) 2 (some (-1)) ≠ clipOpt (-2 : ℝ) 2 (some (-1)) := by
  have h1 : npClip (-1 : ℝ) 0 2 = 0 := by
    unfold npClip
    rw [max_eq_right (by norm_num : (-1 : ℝ) ≤ 0),
      min_eq_left (by norm_num : (0 : ℝ) ≤ 2)]
  have h2 : npClip (-1 : ℝ) (-2) 2 = -1 := by
    unfold npClip
    rw [max_eq_left (by norm_num : (-2 : ℝ) ≤ -1),
      min_eq_left (by norm_num : (-1 : ℝ) ≤ 2)]
  simp only [clipOpt, Option.map_some', h1, h2]
  intro h
  exact absurd (Option.some.inj h) (by norm_num)

/-- Claim C4 (amended): the default clamp range in the exp(1/z) case is
`[-2, 2]` for the real and imaginary projections but `[0, 2]` for the
modulus projection; since the modulus is nonnegative, the `[0, 2]` clamp
agrees with a `[-2, 2]` clamp on every actual modulus value. -/
theorem claim4_clamp_ranges (s : ℝ) (z w : ℂ) :
    expRealPoint s z =
      (realPart (exp_inv_complex (maskPoint s z))).map (fun v => npClip v (-2) 2) ∧
    expImagPoint s z =
      (imagPart (exp_inv_complex (maskPoint s z))).map (fun v => npClip v (-2) 2) ∧
    expAbsPoint s z =
      (absPart (exp_inv_complex (maskPoint s z))).map (fun v => npClip v 0 2) ∧
    npClip (Complex.abs w) 0 2 = npClip (Complex.abs w) (-2) 2 := by
  refine ⟨rfl, rfl, rfl, ?_⟩
  unfold npClip
  have h0 : max (Complex.abs w) 0 = Complex.abs w :=
    max_eq_left (Complex.abs.nonneg w)
  have h2 : max (Complex.abs w) (-2) = Complex.abs w :=
    max_eq_left (by linarith [Complex.abs.nonneg w])
  rw [h0, h2]

/-- Embeds `np.clip` over a whole scalar field (a row of samples with undefined
markers): elementwise, markers pass through. -/
def clipField {α : Type} [LinearOrder α] (lo hi : α) (f : List (Option α)) :
    List (Option α) :=
  f.map (clipOpt lo hi)

/-- A value already inside `[lo, hi]` is unchanged by `np.clip`. -/
theorem npClip_of_le_of_le {α : Type} [LinearOrder α] {v lo hi : α}
    (h1 : lo ≤ v) (h2 : v ≤ hi) : npClip v lo hi = v := by
  unfold npClip
  rw [max_eq_left h1, min_eq_left h2]

/-- Idempotence of `np.clip` for any bounds. -/
theorem npClip_idem {α : Type} [LinearOrder α] (v lo hi : α) :
    npClip (npClip v lo hi) lo hi = npClip v lo hi := by
  unfold npClip
  rcases le_total (max v lo) hi with h | h
  · rw [min_eq_left h, max_eq_left (le_max_right v lo), min_eq_left h]
  · rw [min_eq_right h]
    rcases le_total lo hi with h2 | h2
    · rw [max_eq_left h2, min_self]
    · rw [max_eq_right h2, min_eq_right h2]

theorem clipOpt_idem {α : Type} [LinearOrder α] (lo hi : α) (o : Option α) :
    clipOpt lo hi (clipOpt lo hi o) = clipOpt lo hi o := by
  cases o with
  | none => rfl
  | some v => simp [clipOpt, npClip_idem]

/-- Claim C7: clamping to `[lo, hi]` is idempotent and a no-op on in-range
data: a field whose defined values already lie in `[lo, hi]` is unchanged;
clamping twice with the same bounds equals clamping once; undefined-marker
positions pass through unchanged (they are never mapped to `lo` or `hi`). -/
theorem claim7_clamp_idempotent (lo hi : ℚ) (field : List (Option ℚ)) :
    ((∀ v : ℚ, some v ∈ field → lo ≤ v ∧ v ≤ hi) →
      clipField lo hi field = field) ∧
    clipField lo hi (clipField lo hi field) = clipField lo hi field ∧
    ∀ i : ℕ, field[i]? = some none →
      (clipField lo hi field)[i]? = some none := by
  refine ⟨?_, ?_, ?_⟩
  · intro hin
    induction field with
    | nil => rfl
    | cons a t ih =>
      have ha : clipOpt lo hi a = a := by
        cases a with
        | none => rfl
        | some v =>
          have := hin v (List.mem_cons_self _ _)
          simp [clipOpt, npClip_of_le_of_le this.1 this.2]
      have ht : clipField lo hi t = t :=
        ih (fun v hv => hin v (List.mem_cons_of_mem _ hv))
      calc clipField lo hi (a :: t) = clipOpt lo hi a :: clipField lo hi t := rfl
        _ = a :: t := by rw [ha, ht]
  · unfold clipField
    rw [List.map_map]
    exact List.map_congr_left (fun o _ => clipOpt_idem lo hi o)
  · intro i hi'
    unfold clipField
    rw [List.getElem?_map, hi']
    rfl

theorem claim7_clamp_idempotent_witness :
    clipField (-2 : ℚ) 2 [some 0, none] = [some 0, none] :=
  (claim7_clamp_idempotent (-2) 2 [some 0, none]).1 (by
    intro v hv
    simp only [List.mem_cons, Option.some.injEq, List.not_mem_nil, or_false,
      reduceCtorEq] at hv
    subst hv
    decide)

/-- The colormap name handed to `imshow` in the source scripts. -/
def defaultCmap : String := "RdYlBu_r"

/-- One run of the exp(1/z) real-part pipeline as a function of the full
parameter tuple: build grid from bounds and resolution, mask with the
singularity radius, evaluate, extract the real part, clamp; the resulting
scalar field together with the colormap name is what the renderer consumes.
The source fixes the bounds at `(-1, 1, -1, 1)`; they are threaded as
parameters here to match the spec's parameter list. -/
noncomputable def runPipeline (cmap : String) (res : ℕ) (s : ℝ)
    (bounds : ℚ × ℚ × ℚ × ℚ) : List (List (Option ℝ)) × String :=
  (fieldMap (expRealPoint s)
    (complexGrid (linspace bounds.1 bounds.2.1 res)
      (linspace bounds.2.2.1 bounds.2.2.2 res)),
   cmap)

/-- Claim C8: the pipeline is deterministic — for equal parameter tuples
(colormap name, resolution, singularity size, bounds), two runs of the
grid-build, mask, evaluate, extract, clamp stages produce identical scalar
fields and identical color assignments (the pair handed to the renderer). -/
theorem claim8_determinism (c1 c2 : String) (r1 r2 : ℕ) (s1 s2 : ℝ)
    (b1 b2 : ℚ × ℚ × ℚ × ℚ) (h : (c1, r1, s1, b1) = (c2, r2, s2, b2)) :
    runPipeline c1 r1 s1 b1 = runPipeline c2 r2 s2 b2 := by
  simp only [Prod.mk.injEq] at h
  obtain ⟨rfl, rfl, rfl, rfl⟩ := h
  rfl

theorem claim8_determinism_witness :
    runPipeline defaultCmap 5 (1/100) (-1, 1, -1, 1) =
      runPipeline defaultCmap 5 (1/100) (-1, 1, -1, 1) :=
  claim8_determinism defaultCmap defaultCmap 5 5 (1/100) (1/100)
    (-1, 1, -1, 1) (-1, 1, -1, 1) rfl

/-- The data computed in `plot_absolute_exp` exactly as written in the
source: the complex field, its modulus, the argument in degrees, and the
clipped modulus; the renderer receives only the clipped modulus. -/
noncomputable def plot_absolute_data (res : ℕ) (s : ℝ) :
    List (List (Option ℝ)) :=
  let W := fieldMap (fun z => exp_inv_complex (maskPoint s z))
    (complexGrid (linspace (-1) 1 res) (linspace (-1) 1 res))
  let abs_val := fieldMap absPart W
  let _arg_val := fieldMap argDeg W
  fieldMap (clipOpt 0 2) abs_val

/-- Variant of `plot_absolute_exp` with the argument computation removed. -/
noncomputable def plot_absolute_data_noarg (res : ℕ) (s : ℝ) :
    List (List (Option ℝ)) :=
  let W := fieldMap (fun z => exp_inv_complex (maskPoint s z))
    (complexGrid (linspace (-1) 1 res) (linspace (-1) 1 res))
  let abs_val := fieldMap absPart W
  fieldMap (clipOpt 0 2) abs_val

/-- Claim C9: in the modulus pipeline for exp(1/z), the scalar data handed
to the renderer equals the modulus of the field clamped to `[0, 2]`, and
the argument-in-degrees array also computed has no effect on the emitted
image data: for every resolution and radius, removing the argument
computation leaves the output unchanged. -/
theorem claim9_dead_argument (res : ℕ) (s : ℝ) :
    plot_absolute_data res s = plot_absolute_data_noarg res s ∧
    plot_absolute_data res s =
      fieldMap (expAbsPoint s)
        (complexGrid (linspace (-1) 1 res) (linspace (-1) 1 res)) := by
  refine ⟨rfl, ?_⟩
  unfold plot_absolute_data fieldMap expAbsPoint
  simp [List.map_map, Function.comp]

/-- An unmasked nonzero point yields the defined, clipped real part. -/
theorem expRealPoint_defined {s : ℝ} {z : ℂ} (hmask : ¬ Complex.abs z < s)
    (hz : z ≠ 0) :
    expRealPoint s z = some (npClip (Complex.exp z⁻¹).re (-2) 2) := by
  unfold expRealPoint maskPoint
  rw [if_neg hmask]
  simp [exp_inv_complex, hz, realPart, clipOpt]

/-- The corner point `-1 - i` of the default domain has modulus at least 1. -/
theorem one_le_abs_corner : (1 : ℝ) ≤ Complex.abs (gridPoint (-1) (-1)) := by
  have h := Complex.abs_re_le_abs (gridPoint (-1) (-1))
  rw [gridPoint_re] at h
  have : |((-1 : ℚ) : ℝ)| = 1 := by norm_num
  linarith [this ▸ h]

theorem corner_ne_zero : gridPoint (-1) (-1) ≠ 0 := by
  intro h
  have := congrArg Complex.re h
  rw [gridPoint_re] at this
  norm_num at this

/-- At resolution 1 the grid is the single corner point and the pipeline
produces a defined 1×1 scalar field whenever the singularity radius is at
most 1 (the source default is 0.01). -/
theorem expRealField_res_one (s : ℝ) (hs : s ≤ 1) :
    expRealField 1 s =
      [[some (npClip (Complex.exp (gridPoint (-1) (-1))⁻¹).re (-2) 2)]] := by
  have hmask : ¬ Complex.abs (gridPoint (-1) (-1)) < s := by
    intro hlt
    linarith [one_le_abs_corner]
  have : expRealField 1 s = [[expRealPoint s (gridPoint (-1) (-1))]] := rfl
  rw [this, expRealPoint_defined hmask corner_ne_zero]

/-- Claim C6 counterexample: with the default singularity radius 0.01,
grid construction at resolution 1 does not fail — the code performs no
validation — and a 1×1 scalar field with a defined value is produced,
contradicting the claim that any resolution below 2 is rejected with a
configuration error and no scalar field is produced. -/
theorem claim6_resolution_one_counterexample :
    linspace (-1) 1 1 = [-1] ∧
    shape (expRealField 1 (1 / 100)) = [1] ∧
    ∃ v : ℝ, expRealField 1 (1 / 100) = [[some v]] := by
  refine ⟨rfl, ?_, ?_⟩
  · rw [expRealField_res_one (1 / 100) (by norm_num)]
    rfl
  · exact ⟨_, expRealField_res_one (1 / 100) (by norm_num)⟩

/-- Claim C6 (amended): the code performs no resolution validation — there
is no configuration-error path; resolution 1 yields the single axis sample
`-1`, so the lattice is the single point `-1 - i`, and for any singularity
radius at most 1 the pipeline produces a 1×1 scalar field whose sole entry
is a defined value. -/
theorem claim6_no_resolution_validation (s : ℝ) (hs : s ≤ 1) :
    linspace (-1) 1 1 = [-1] ∧
    shape (expRealField 1 s) = [1] ∧
    ∃ v : ℝ, expRealField 1 s = [[some v]] := by
  refine ⟨rfl, ?_, ?_⟩
  · rw [expRealField_res_one s hs]
    rfl
  · exact ⟨_, expRealField_res_one s hs⟩

theorem claim6_no_resolution_validation_witness :
    linspace (-1) 1 1 = [-1] ∧
    shape (expRealField 1 (1 / 2)) = [1] ∧
    ∃ v : ℝ, expRealField 1 (1 / 2) = [[some v]] :=
  claim6_no_resolution_validation (1 / 2) (by norm_num)

/-- One row of `zero_mask = (X == 0) & (Y == 0)`: the row for axis value
`y`, over the x samples. -/
def zero_mask_row (xs : List ℚ) (y : ℚ) : List Bool :=
  xs.map (fun x => decide (x = 0 ∧ y = 0))

/-- The full `zero_mask` boolean lattice of the ln scripts. -/
def zero_mask (xs ys : List ℚ) : List (List Bool) :=
  ys.map (zero_mask_row xs)

/-- Number of masked (excluded) lattice positions. -/
def maskCount (m : List (List Bool)) : ℕ :=
  (m.map (fun r => r.countP id)).sum

theorem linspace_length (a b : ℚ) (n : ℕ) : (linspace a b n).length = n := by
  unfold linspace
  split_ifs with h0 h1
  · simp [h0]
  · simp [h1]
  · simp

theorem linspace_getElem? (a b : ℚ) {n i : ℕ} (hn : 2 ≤ n) (hi : i < n) :
    (linspace a b n)[i]? = some (a + (b - a) * i / (n - 1)) := by
  unfold linspace
  rw [if_neg (by omega), if_neg (by omega), List.getElem?_map,
    List.getElem?_range hi, Option.map_some']

theorem zero_mask_row_countP (xs : List ℚ) (y : ℚ) :
    (zero_mask_row xs y).countP id =
      if y = 0 then xs.countP (fun x => decide (x = 0)) else 0 := by
  unfold zero_mask_row
  rw [List.countP_map]
  by_cases hy : y = 0
  · rw [if_pos hy]
    exact List.countP_congr (fun x _ => by simp [Function.comp, hy])
  · rw [if_neg hy]
    rw [List.countP_eq_zero]
    intro x _
    simp [Function.comp, hy]

theorem maskCount_eq_mul (xs ys : List ℚ) :
    maskCount (zero_mask xs ys) =
      (ys.countP (fun y => decide (y = 0))) *
        (xs.countP (fun x => decide (x = 0))) := by
  unfold maskCount zero_mask
  induction ys with
  | nil => simp
  | cons y t ih =>
    rw [List.map_cons, List.map_cons, List.sum_cons, List.countP_cons,
      zero_mask_row_countP, ih]
    by_cases hy : y = 0
    · simp only [hy, if_pos rfl, decide_True, if_true]
      ring
    · simp only [hy, if_neg hy, decide_False]
      simp

/-- In `linspace (-4) 4 401`, zero occurs exactly once, at index 200. -/
theorem linspace_401_zero_count :
    ((linspace (-4 : ℚ) 4 401).countP (fun x => decide (x = 0)) = 1) ∧
    (linspace (-4 : ℚ) 4 401)[200]? = some 0 := by
  constructor
  · unfold linspace
    rw [if_neg (by omega), if_neg (by omega), List.countP_map]
    have hcong : ∀ i ∈ List.range 401,
        ((fun x : ℚ => decide (x = 0)) ∘ fun i : ℕ =>
          (-4 : ℚ) + (4 - -4) * (i : ℚ) / (((401 : ℕ) : ℚ) - 1)) i ↔
        ((fun j : ℕ => j == 200) i) := by
      intro i _
      simp only [Function.comp, decide_eq_true_eq, beq_iff_eq]
      constructor
      · intro h
        have hq : (i : ℚ) = 200 := by push_cast at h ⊢; linarith
        exact_mod_cast hq
      · intro h
        subst h
        push_cast
        norm_num
    rw [List.countP_congr hcong]
    have : (List.range 401).countP (fun j : ℕ => j == 200) =
        (List.range 401).count 200 := rfl
    rw [this]
    exact List.count_eq_one_of_mem (List.nodup_range 401) (by simp)
  · rw [linspace_getElem? (-4) 4 (by omega) (by omega)]
    push_cast
    norm_num

/-- Claim C10: for the principal_log pipeline over `[-4,4] × [-4,4]` with
401 samples per axis, the exact-zero mask excludes exactly one lattice
position, at index (200, 200), because zero occurs exactly once in each
axis sequence; and for any grid in which no axis sample is exactly zero,
the mask excludes no position at all. -/
theorem claim10_zero_mask_count :
    ((linspace (-4 : ℚ) 4 401).countP (fun x => decide (x = 0)) = 1) ∧
    maskCount (zero_mask (linspace (-4) 4 401) (linspace (-4) 4 401)) = 1 ∧
    ((zero_mask (linspace (-4) 4 401) (linspace (-4) 4 401)).getD 200 []).getD
      200 false = true ∧
    ∀ xs ys : List ℚ, (∀ x ∈ xs, x ≠ 0) → (∀ y ∈ ys, y ≠ 0) →
      maskCount (zero_mask xs ys) = 0 := by
  obtain ⟨hcount, hmid⟩ := linspace_401_zero_count
  refine ⟨hcount, ?_, ?_, ?_⟩
  · rw [maskCount_eq_mul, hcount]
  · have hrow : (zero_mask (linspace (-4) 4 401) (linspace (-4) 4 401)).getD
        200 [] = zero_mask_row (linspace (-4) 4 401) 0 := by
      unfold zero_mask
      rw [List.getD_eq_getElem?_getD, List.getElem?_map, hmid,
        Option.map_some', Option.getD_some]
    rw [hrow]
    unfold zero_mask_row
    rw [List.getD_eq_getElem?_getD, List.getElem?_map, hmid,
      Option.map_some', Option.getD_some]
    simp
  · intro xs ys hx hy
    rw [maskCount_eq_mul]
    have : xs.countP (fun x => decide (x = 0)) = 0 := by
      rw [List.countP_eq_zero]
      intro x hxm
      simpa using hx x hxm
    rw [this, Nat.mul_zero]

theorem claim10_zero_mask_count_witness :
    maskCount (zero_mask [1] [1]) = 0 :=
  claim10_zero_mask_count.2.2.2 [1] [1] (by decide) (by decide)

/-- Modelled from the spec: the discrete (banded) color mapping of §4.4.
The source delegates banding to an external contouring routine
(matplotlib contourf with `levels = n_levels`), which is not part of this
repository, so the LevelSet is modelled from the spec's words: `n_levels`
equal-width bands spanning the observed min/max, a value exactly on a band
edge belongs to the higher band, and the field maximum belongs to the
topmost band. -/
def bandIndex (lo hi : ℚ) (k : ℕ) (v : ℚ) : ℕ :=
  if hi ≤ v then k - 1
  else (⌊(v - lo) * k / (hi - lo)⌋).toNat

/-- Modelled from the spec: the i-th boundary value of the LevelSet
partitioning `[lo, hi]` into `k` equal-width bands. -/
def bandBoundary (lo hi : ℚ) (k : ℕ) (i : ℕ) : ℚ :=
  lo + (hi - lo) * i / k

/-- Modelled from the spec: the number of distinct band colors appearing
in the output over the observed data range. -/
def distinctColorCount (vals : List ℚ) (k : ℕ) : ℕ :=
  match vals.min?, vals.max? with
  | some lo, some hi => ((vals.map (bandIndex lo hi k)).toFinset).card
  | _, _ => 0

theorem bandIndex_max (lo hi : ℚ) (k : ℕ) : bandIndex lo hi k hi = k - 1 := by
  unfold bandIndex
  rw [if_pos (le_refl hi)]

theorem bandIndex_min {lo hi : ℚ} (k : ℕ) (h : lo < hi) :
    bandIndex lo hi k lo = 0 := by
  unfold bandIndex
  rw [if_neg (not_le.mpr h)]
  simp

theorem bandIndex_lt {lo hi : ℚ} {k : ℕ} (hk : 0 < k) {v : ℚ}
    (h1 : lo ≤ v) (_h2 : v ≤ hi) : bandIndex lo hi k v < k := by
  unfold bandIndex
  split_ifs with h
  · omega
  · push_neg at h
    have hpos : (0 : ℚ) < hi - lo := by linarith
    have hkq : (0 : ℚ) < (k : ℚ) := by exact_mod_cast hk
    have ht : (v - lo) * k / (hi - lo) < k := by
      rw [div_lt_iff₀ hpos]
      nlinarith
    have hfl : ⌊(v - lo) * k / (hi - lo)⌋ < (k : ℤ) := by
      apply Int.floor_lt.mpr
      push_cast
      exact ht
    omega

theorem bandIndex_contains {lo hi : ℚ} {k : ℕ} (hk : 0 < k) {v : ℚ}
    (h1 : lo ≤ v) (h2 : v < hi) :
    bandBoundary lo hi k (bandIndex lo hi k v) ≤ v ∧
    v < bandBoundary lo hi k (bandIndex lo hi k v + 1) := by
  have hpos : (0 : ℚ) < hi - lo := by linarith
  have hkq : (0 : ℚ) < (k : ℚ) := by exact_mod_cast hk
  set t : ℚ := (v - lo) * k / (hi - lo) with htdef
  have ht0 : 0 ≤ t := by
    apply div_nonneg _ (le_of_lt hpos)
    have : (0 : ℚ) ≤ v - lo := by linarith
    positivity
  have hidx : bandIndex lo hi k v = (⌊t⌋).toNat := by
    unfold bandIndex
    rw [if_neg (not_le.mpr h2)]
  have hcast : (((⌊t⌋).toNat : ℕ) : ℚ) = ((⌊t⌋ : ℤ) : ℚ) := by
    exact_mod_cast congrArg (fun z : ℤ => (z : ℚ))
      (Int.toNat_of_nonneg (Int.floor_nonneg.mpr ht0))
  have htc : t * (hi - lo) = (v - lo) * k := by
    rw [htdef, div_mul_cancel₀ _ (ne_of_gt hpos)]
  constructor
  · rw [hidx]
    unfold bandBoundary
    have hfl : ((⌊t⌋ : ℤ) : ℚ) ≤ t := Int.floor_le t
    have hmul : ((⌊t⌋ : ℤ) : ℚ) * (hi - lo) ≤ (v - lo) * k := by
      calc ((⌊t⌋ : ℤ) : ℚ) * (hi - lo) ≤ t * (hi - lo) :=
            mul_le_mul_of_nonneg_right hfl (le_of_lt hpos)
        _ = (v - lo) * k := htc
    have hdiv : (hi - lo) * (((⌊t⌋).toNat : ℕ) : ℚ) / k ≤ v - lo := by
      rw [div_le_iff₀ hkq, hcast, mul_comm]
      exact hmul
    linarith
  · rw [hidx]
    unfold bandBoundary
    have hfl : t < ((⌊t⌋ : ℤ) : ℚ) + 1 := Int.lt_floor_add_one t
    have hmul : (v - lo) * k < (((⌊t⌋ : ℤ) : ℚ) + 1) * (hi - lo) := by
      calc (v - lo) * k = t * (hi - lo) := htc.symm
        _ < (((⌊t⌋ : ℤ) : ℚ) + 1) * (hi - lo) :=
            mul_lt_mul_of_pos_right hfl hpos
    have hdiv : v - lo < (hi - lo) * (((⌊t⌋).toNat + 1 : ℕ) : ℚ) / k := by
      rw [lt_div_iff₀ hkq]
      push_cast
      rw [hcast]
      calc (v - lo) * k < (((⌊t⌋ : ℤ) : ℚ) + 1) * (hi - lo) := hmul
        _ = (hi - lo) * (((⌊t⌋ : ℤ) : ℚ) + 1) := by ring
    linarith

theorem min?_example : ([0, 12] : List ℚ).min? = some 0 := by
  have h : ([0, 12] : List ℚ).min? = some (min 0 12) := rfl
  rw [h, min_eq_left (by norm_num)]

theorem max?_example : ([0, 12] : List ℚ).max? = some 12 := by
  have h : ([0, 12] : List ℚ).max? = some (max 0 12) := rfl
  rw [h, max_eq_right (by norm_num)]

theorem bandIndex_example_zero : bandIndex 0 12 12 0 = 0 := by
  unfold bandIndex
  rw [if_neg (by norm_num)]
  have h : ((0 : ℚ) - 0) * (12 : ℕ) / (12 - 0) = 0 := by norm_num
  rw [h, Int.floor_zero]
  rfl

theorem bandIndex_example_top : bandIndex 0 12 12 12 = 11 := by
  unfold bandIndex
  rw [if_pos (le_refl (12 : ℚ))]

/-- Claim C5 counterexample: with the default `n_levels = 12`, the
non-constant field `[0, 12]` (whose observed range is `[0, 12]`) occupies
only the bottom and top bands, so the discrete mapping yields 2 distinct
colors, not 12. -/
theorem claim5_band_count_counterexample :
    (∃ a ∈ ([0, 12] : List ℚ), ∃ b ∈ ([0, 12] : List ℚ), a ≠ b) ∧
    distinctColorCount [0, 12] 12 = 2 ∧
    distinctColorCount [0, 12] 12 ≠ 12 := by
  have hcc : distinctColorCount [0, 12] 12 = 2 := by
    unfold distinctColorCount
    rw [min?_example, max?_example]
    change ((([0, 12] : List ℚ).map (bandIndex 0 12 12)).toFinset).card = 2
    have hmap : ([0, 12] : List ℚ).map (bandIndex 0 12 12) = [0, 11] := by
      rw [List.map_cons, List.map_cons, List.map_nil,
        bandIndex_example_zero, bandIndex_example_top]
    rw [hmap]
    decide
  exact ⟨⟨0, by simp, 12, by simp, by norm_num⟩, hcc, by omega⟩

/-- Claim C5 (amended): discrete color mapping with `n_levels = k` over a
non-constant field partitions the observed range `[lo, hi]` into exactly
`k` equal-width contiguous bands spanning the observed min and max,
assigns each sample to exactly one band (an index below `k`, whose band
contains the sample; the maximum belongs to the topmost band), and yields
at least 2 and at most `k` distinct colors — exactly `k` only when every
band is occupied. -/
theorem claim5_banding (vals : List ℚ) (k : ℕ) (lo hi : ℚ) (hk : 2 ≤ k)
    (hlo : vals.min? = some lo) (hhi : vals.max? = some hi)
    (hnc : ∃ a ∈ vals, ∃ b ∈ vals, a ≠ b) :
    bandBoundary lo hi k 0 = lo ∧
    bandBoundary lo hi k k = hi ∧
    (∀ i : ℕ, bandBoundary lo hi k (i + 1) - bandBoundary lo hi k i =
      (hi - lo) / k) ∧
    (∀ v ∈ vals, bandIndex lo hi k v < k ∧
      bandBoundary lo hi k (bandIndex lo hi k v) ≤ v ∧
      (v < bandBoundary lo hi k (bandIndex lo hi k v + 1) ∨ v = hi)) ∧
    distinctColorCount vals k ≤ k ∧
    2 ≤ distinctColorCount vals k := by
  have hk0 : 0 < k := by omega
  have hkq : (0 : ℚ) < (k : ℚ) := by exact_mod_cast hk0
  have hkne : ((k : ℚ)) ≠ 0 := ne_of_gt hkq
  have hmemlo : lo ∈ vals := List.min?_mem (fun a b => min_choice a b) hlo
  have hmemhi : hi ∈ vals := List.max?_mem (fun a b => max_choice a b) hhi
  have hlov : ∀ v ∈ vals, lo ≤ v :=
    (List.le_min?_iff (fun a b c => le_min_iff) hlo).1 (le_refl lo)
  have hvhi : ∀ v ∈ vals, v ≤ hi :=
    (List.max?_le_iff (fun a b c => max_le_iff) hhi).1 (le_refl hi)
  have hlthi : lo < hi := by
    rcases lt_or_eq_of_le (hlov hi hmemhi) with h | h
    · exact h
    · exfalso
      obtain ⟨a, ha, b, hb, hab⟩ := hnc
      have ha' : a = lo := le_antisymm (h ▸ hvhi a ha) (hlov a ha)
      have hb' : b = lo := le_antisymm (h ▸ hvhi b hb) (hlov b hb)
      exact hab (ha'.trans hb'.symm)
  have hcount : distinctColorCount vals k =
      ((vals.map (bandIndex lo hi k)).toFinset).card := by
    unfold distinctColorCount
    rw [hlo, hhi]
  refine ⟨?_, ?_, ?_, ?_, ?_, ?_⟩
  · simp [bandBoundary]
  · unfold bandBoundary
    rw [mul_div_assoc, div_self hkne, mul_one]
    ring
  · intro i
    unfold bandBoundary
    push_cast
    field_simp
    ring
  · intro v hv
    have h1 := hlov v hv
    have h2 := hvhi v hv
    refine ⟨bandIndex_lt hk0 h1 h2, ?_, ?_⟩
    · rcases lt_or_eq_of_le h2 with hlt | heq
      · exact (bandIndex_contains hk0 h1 hlt).1
      · subst heq
        rw [bandIndex_max]
        unfold bandBoundary
        have hc1 : ((k - 1 : ℕ) : ℚ) ≤ (k : ℚ) := by
          exact_mod_cast Nat.sub_le k 1
        have h3 : (v - lo) * ((k - 1 : ℕ) : ℚ) ≤ (v - lo) * (k : ℚ) :=
          mul_le_mul_of_nonneg_left hc1 (by linarith)
        have h4 : (v - lo) * ((k - 1 : ℕ) : ℚ) / k ≤ (v - lo) * (k : ℚ) / k :=
          (div_le_div_iff_of_pos_right hkq).mpr h3
        have h5 : (v - lo) * (k : ℚ) / k = v - lo := by
          rw [mul_div_assoc, div_self hkne, mul_one]
        linarith
    · rcases lt_or_eq_of_le h2 with hlt | heq
      · exact Or.inl (bandIndex_contains hk0 h1 hlt).2
      · exact Or.inr heq
  · rw [hcount]
    have hsub : (vals.map (bandIndex lo hi k)).toFinset ⊆ Finset.range k := by
      intro n hn
      rw [List.mem_toFinset, List.mem_map] at hn
      obtain ⟨v, hv, rfl⟩ := hn
      exact Finset.mem_range.mpr (bandIndex_lt hk0 (hlov v hv) (hvhi v hv))
    calc ((vals.map (bandIndex lo hi k)).toFinset).card
        ≤ (Finset.range k).card := Finset.card_le_card hsub
      _ = k := Finset.card_range k
  · rw [hcount]
    have h0mem : (0 : ℕ) ∈ (vals.map (bandIndex lo hi k)).toFinset := by
      rw [List.mem_toFinset]
      have := List.mem_map_of_mem (bandIndex lo hi k) hmemlo
      rwa [bandIndex_min k hlthi] at this
    have hkmem : (k - 1 : ℕ) ∈ (vals.map (bandIndex lo hi k)).toFinset := by
      rw [List.mem_toFinset]
      have := List.mem_map_of_mem (bandIndex lo hi k) hmemhi
      rwa [bandIndex_max] at this
    have : 1 < ((vals.map (bandIndex lo hi k)).toFinset).card :=
      Finset.one_lt_card.mpr ⟨0, h0mem, k - 1, hkmem, by omega⟩
    omega

theorem claim5_banding_witness :
    distinctColorCount [0, 12] 12 ≤ 12 ∧ 2 ≤ distinctColorCount [0, 12] 12 :=
  ⟨(claim5_banding [0, 12] 12 0 12 (by norm_num) min?_example max?_example
      ⟨0, by simp, 12, by simp, by norm_num⟩).2.2.2.2.1,
   (claim5_banding [0, 12] 12 0 12 (by norm_num) min?_example max?_example
      ⟨0, by simp, 12, by simp, by norm_num⟩).2.2.2.2.2⟩

end Icons
